import Mathlib

/-!
Verification development for the bananazone client-side data layer.

Shallow embedding of `vercel_cache_solution.js` (class `CryptoDataFetcher`)
and `vercel_trading_bot_example.js` (class `CryptoTradingBot`).

Modelling conventions:
* JavaScript strings are lists of characters (`JsStr`).
* JavaScript numbers carried by data records (prices, spreads, strengths)
  are rationals; timestamps (`t` fields, epoch milliseconds) are naturals.
* The network is an explicit environment: a function from candidate-URL
  index and attempt index to the observed HTTP outcome, where `none` is a
  non-2xx status or transport failure and `some body` is a 200 response,
  its text already split into lines at the granularity the code inspects
  (blank line / unparseable line / valid JSON record).
* The in-memory `Map` cache is an association list threaded through the
  functions; the single clock read `Date.now()` is an explicit `now`
  argument (one value per call).
* `console.log` / `console.warn` diagnostics are not state; the two
  consistency-check warnings are surfaced as booleans in the output so the
  advisory checks remain visible.
-/

/-- A JavaScript string, modelled as its list of characters. -/
abbrev JsStr := List Char

/-- One parsed NDJSON record, with the fields the code reads
(`t`, `mid`, `spread_L5_pct`, `vol_L50_bids`, `vol_L50_asks`). -/
structure Record where
  t : Nat
  mid : ℚ
  spread_L5_pct : ℚ
  vol_L50_bids : ℚ
  vol_L50_asks : ℚ
deriving DecidableEq

/-- One line of a fetched NDJSON body as the parsing pipeline sees it:
whitespace-only, malformed JSON, or a valid record. -/
inductive BodyLine
  | blank
  | bad
  | record (r : Record)
deriving DecidableEq

/-- A response body: its list of lines. -/
abbrev Body := List BodyLine

/-- Model of `JSON.parse` of one line inside the `lines.map` of `fetchCryptoData`:
a line that fails to parse yields `null` and is filtered out. -/
def parseLine : BodyLine → Option Record
  | .record r => some r
  | _ => none

/-- The body-processing steps of `fetchCryptoData` (lines 112-137 of
`vercel_cache_solution.js`): empty trimmed text, then the non-blank line
filter, then per-line parsing dropping failures; `none` when the candidate
is abandoned (`continue`), `some records` with the valid records otherwise. -/
def processBody (body : Body) : Option (List Record) :=
  if body.all (fun l => l == BodyLine.blank) then none
  else
    let lines := body.filter (fun l => l != BodyLine.blank)
    if lines.isEmpty then none
    else
      let records := lines.filterMap parseLine
      if records.isEmpty then none
      else some records

/-- Model of `fetchWithCacheBusting(url, maxRetries)`: try attempts in order, return
the first 200 body; count the attempts issued. A call with zero fuel makes
no attempt and yields no body (in the source the loop body never runs and
the `undefined` return is treated as a failed candidate by the caller). -/
def fetchWithCacheBusting (att : Nat → Option Body) : Nat → Nat → Option Body × Nat
  | 0, _ => (none, 0)
  | fuel + 1, k =>
    match att k with
    | some body => (some body, 1)
    | none =>
      let r := fetchWithCacheBusting att fuel (k + 1)
      (r.1, r.2 + 1)

/-- Model of `bestResult.metadata`: winning candidate URL (by index), its last
record's declared timestamp, record count, and the clock at fetch time. -/
structure Metadata where
  url : Nat
  timestamp : Nat
  recordCount : Nat
  fetchTime : Nat
deriving DecidableEq

/-- The `bestResult` object returned by `fetchCryptoData`. -/
structure FetchResult where
  records : List Record
  metadata : Metadata
deriving DecidableEq

/-- Model of `lastRecord.t`: the declared timestamp of the last record of a
candidate's record list. -/
def lastT (records : List Record) : Nat :=
  ((records.getLast?).map Record.t).getD 0

/-- The freshness test `!latestTimestamp || timestamp > latestTimestamp`
on line 146: `latestTimestamp` is initially `null`, and a stored numeric
value of `0` is also falsy in JavaScript. -/
def isFresher (timestamp : Nat) (latestTimestamp : Option Nat) : Bool :=
  match latestTimestamp with
  | none => true
  | some l => l == 0 || decide (l < timestamp)

/-- State of the candidate-URL loop of `fetchCryptoData`: the best result
so far, its `latestTimestamp`, and the per-URL attempt counts issued. -/
structure LoopState where
  bestResult : Option FetchResult
  latestTimestamp : Option Nat
  attempts : List Nat
deriving DecidableEq

/-- One iteration of `for (const url of urls)` (lines 107-162): fetch the
candidate with the hardcoded per-URL retry cap 2, process the body, and
keep the result when the freshness test passes. -/
def candidateStep (net : Nat → Nat → Option Body) (now : Nat)
    (s : LoopState) (i : Nat) : LoopState :=
  let fr := fetchWithCacheBusting (net i) 2 0
  let s' : LoopState := { s with attempts := s.attempts ++ [fr.2] }
  match fr.1 with
  | none => s'
  | some body =>
    match processBody body with
    | none => s'
    | some records =>
      let timestamp := lastT records
      if isFresher timestamp s'.latestTimestamp then
        { s' with
          latestTimestamp := some timestamp
          bestResult := some ⟨records, ⟨i, timestamp, records.length, now⟩⟩ }
      else s'

/-- The three candidate URLs built on lines 98-102, by index. -/
def urlIndices : List Nat := [0, 1, 2]

/-- The whole candidate loop, starting from `bestResult = null`,
`latestTimestamp = null`. -/
def runCandidates (net : Nat → Nat → Option Body) (now : Nat) : LoopState :=
  urlIndices.foldl (candidateStep net now) ⟨none, none, []⟩

/-- The options object of `fetchCryptoData` with its destructuring
defaults (`maxRetries = 3, consistencyCheck = true, useCache = true`). -/
structure FetchOptions where
  maxRetries : Nat := 3
  consistencyCheck : Bool := true
  useCache : Bool := true
deriving DecidableEq

/-- The in-memory `Map` cache: an insertion-ordered association list from
key strings to results. -/
abbrev Cache := List (JsStr × FetchResult)

/-- Model of `Map.get` and `Map.has`: the first entry with the given key. -/
def mapGet (m : Cache) (k : JsStr) : Option FetchResult :=
  (m.find? (fun e => decide (e.1 = k))).map Prod.snd

/-- Model of `Map.set`: replace the entry in place when the key is present,
otherwise append. -/
def mapSet (m : Cache) (k : JsStr) (v : FetchResult) : Cache :=
  if m.any (fun e => decide (e.1 = k)) then
    m.map (fun e => if e.1 = k then (k, v) else e)
  else m ++ [(k, v)]

/-- One decimal digit as a character, as JavaScript number-to-string
conversion renders it. -/
def digitChar (d : Nat) : Char :=
  match d with
  | 0 => '0' | 1 => '1' | 2 => '2' | 3 => '3' | 4 => '4'
  | 5 => '5' | 6 => '6' | 7 => '7' | 8 => '8' | _ => '9'

/-- Decoding of a digit character. -/
def unDigit (c : Char) : Nat := c.toNat - 48

/-- Little-endian decimal digits of a natural number, by fuel recursion so
the kernel can evaluate it (`Nat.digits` is well-founded recursion). -/
def natDigitsAux : Nat → Nat → List Nat
  | 0, _ => []
  | _ + 1, 0 => []
  | fuel + 1, n + 1 => ((n + 1) % 10) :: natDigitsAux fuel ((n + 1) / 10)

/-- Little-endian decimal digits of a natural number. -/
def natDigits (n : Nat) : List Nat := natDigitsAux n n

/-- Decimal rendering of a natural number (JavaScript `${n}`). -/
def natChars (n : Nat) : JsStr :=
  if n = 0 then ['0'] else ((natDigits n).reverse.map digitChar)

/-- The value of `this.cacheTimeout` (30 seconds, in milliseconds). -/
def cacheTimeout : Nat := 30000

/-- The cache key for a path and a time bucket:
`` `${path}-${bucket}` ``. -/
def bucketKey (path : JsStr) (bucket : Nat) : JsStr :=
  path ++ '-' :: natChars bucket

/-- The cache key computed on line 89:
`` `${path}-${Math.floor(Date.now() / this.cacheTimeout)}` ``. -/
def cacheKey (path : JsStr) (now : Nat) : JsStr :=
  bucketKey path (now / cacheTimeout)

/-- JavaScript `String.prototype.endsWith`. -/
def jsEndsWith (s sfx : JsStr) : Bool := decide (sfx <:+ s)

/-- The object path `` `${exchange}/${asset}/${timeframe}/${date}.jsonl` ``
built on line 88. -/
def mkPath (exchange asset timeframe date : JsStr) : JsStr :=
  exchange ++ '/' :: asset ++ '/' :: timeframe ++ '/' :: date
    ++ ['.', 'j', 's', 'o', 'n', 'l']

/-- The one user-visible failure of `fetchCryptoData`: the line-165 throw
(`FetchExhausted` in the specification's taxonomy). -/
inductive FetchError
  | fetchExhausted
deriving DecidableEq

instance : DecidableEq (Except FetchError FetchResult) := fun x y =>
  match x, y with
  | .ok a, .ok b => decidable_of_iff (a = b) (by simp)
  | .error a, .error b => decidable_of_iff (a = b) (by simp)
  | .ok _, .error _ => isFalse (by simp)
  | .error _, .ok _ => isFalse (by simp)

/-- Observable outcome of one `fetchCryptoData` call: the returned result
or thrown error, the cache after the call, the per-candidate-URL attempt
counts issued (empty on a cache hit), and the two advisory
consistency-check warnings. -/
structure FetchOut where
  result : Except FetchError FetchResult
  cache : Cache
  attempts : List Nat
  staleWarned : Bool
  fewRecordsWarned : Bool

/-- Model of `fetchCryptoData(exchange, asset, timeframe, date, options)`
(lines 81-197). The `maxRetries` option is destructured on line 83 but the
per-URL fetch on line 109 passes the literal `2`, so the option is never
used. On a cache hit the stored result is returned with no network
traffic; otherwise the three candidates are raced, the freshest is kept,
and — when `useCache` — stored under the current bucket's key while every
key not ending in the current bucket suffix is deleted. -/
def fetchCryptoData (net : Nat → Nat → Option Body) (cache : Cache) (now : Nat)
    (exchange asset timeframe date : JsStr) (options : FetchOptions) : FetchOut :=
  let path := mkPath exchange asset timeframe date
  let key := cacheKey path now
  match (if options.useCache then mapGet cache key else none) with
  | some cached => ⟨.ok cached, cache, [], false, false⟩
  | none =>
    let s := runCandidates net now
    match s.bestResult with
    | none => ⟨.error .fetchExhausted, cache, s.attempts, false, false⟩
    | some best =>
      let staleWarned := options.consistencyCheck
        && decide ((3600000 : ℤ) < (now : ℤ) - (lastT best.records : ℤ))
      let fewRecordsWarned := options.consistencyCheck
        && decide (best.records.length < 10)
      let cache' :=
        if options.useCache then
          (mapSet cache key best).filter
            (fun e => jsEndsWith e.1 ('-' :: natChars (now / cacheTimeout)))
        else cache
      ⟨.ok best, cache', s.attempts, staleWarned, fewRecordsWarned⟩

/-- The record-set a candidate URL contributes in one round: `none` when
the candidate is abandoned (HTTP failure after both attempts, empty body,
or no valid records), `some records` otherwise. -/
def candidateRecords (net : Nat → Nat → Option Body) (i : Nat) : Option (List Record) :=
  match (fetchWithCacheBusting (net i) 2 0).1 with
  | none => none
  | some body => processBody body

/-- Invariant of the candidate loop after processing the candidates in
`seen`: either nothing succeeded yet and there is no best result, or the
best result comes from a seen candidate, carries that candidate's records
and last timestamp, and its timestamp dominates the last timestamp of
every seen candidate that produced records. -/
def LoopInvP (net : Nat → Nat → Option Body) (now : Nat)
    (seen : List Nat) (s : LoopState) : Prop :=
  (s.bestResult = none ∧ s.latestTimestamp = none ∧
    ∀ i ∈ seen, candidateRecords net i = none)
  ∨ (∃ r, s.bestResult = some r ∧ s.latestTimestamp = some r.metadata.timestamp ∧
      r.metadata.timestamp = lastT r.records ∧
      r.metadata.recordCount = r.records.length ∧
      r.metadata.fetchTime = now ∧
      r.metadata.url ∈ seen ∧
      candidateRecords net r.metadata.url = some r.records ∧
      ∀ i ∈ seen, ∀ rs, candidateRecords net i = some rs →
        lastT rs ≤ r.metadata.timestamp)

/-!
Embedding of `vercel_trading_bot_example.js` (class `CryptoTradingBot`).

The analysis layer is pure apart from `new Date().toISOString()` stamps and
`console.log` output; the stamps decorate every produced object uniformly
and carry no decision content, so they are not modelled. Action items are
strings built from fixed templates; each template is modelled as a
constructor carrying the data interpolated into it.
-/

/-- One entry of `insights.current_signals`. -/
structure Signal where
  exchange : String
  asset : String
  direction : String
  strength : ℚ
  confidence : ℚ
  data_type : String
deriving DecidableEq

/-- One entry of `insights.arbitrage_opportunities`. -/
structure ArbOpp where
  asset : String
  low_exchange : String
  high_exchange : String
  low_price : ℚ
  high_price : ℚ
  price_difference_pct : ℚ
deriving DecidableEq

/-- One value of `insights.exchange_health`; `health_score` may be absent
(`h.health_score || 0`). -/
structure ExchangeHealth where
  health_score : Option ℚ
deriving DecidableEq

/-- Model of `insights.market_overview`; each field may be absent (`|| 0` /
optional chaining in the source). -/
structure MarketOverview where
  total_market_volume : Option ℚ
  average_spreads_L5 : Option ℚ
  market_volatility : Option ℚ
deriving DecidableEq

/-- The insight document consumed by the bot; each sub-collection may be
missing (`insights.current_signals || []` and friends). Only
`Object.values` of `exchange_health` is read, so it is a list of values. -/
structure Insights where
  current_signals : Option (List Signal)
  arbitrage_opportunities : Option (List ArbOpp)
  exchange_health : Option (List ExchangeHealth)
  market_overview : Option MarketOverview
deriving DecidableEq

/-- JavaScript `x || 0` for a possibly-absent number (note `0 || 0 = 0`,
so collapsing the falsy-zero case is exact). -/
def jsOr0 : Option ℚ → ℚ
  | none => 0
  | some x => x

/-- One trading decision produced by `analyzeSignals` (lines 40-49);
`timestamp` and the formatted `reason` string are presentation. -/
structure TradingDecision where
  exchange : String
  asset : String
  action : String
  strength : ℚ
  confidence : ℚ
  dataType : String
deriving DecidableEq

/-- The decision object built for one strong signal. -/
def mkDecision (s : Signal) : TradingDecision :=
  ⟨s.exchange, s.asset, s.direction, s.strength, s.confidence, s.data_type⟩

/-- Model of `analyzeSignals(insights)` (lines 28-58): keep signals with
`strength > 0.7 && confidence > 0.6`, and map each to a decision. -/
def analyzeSignals (insights : Insights) : List TradingDecision :=
  let signals := insights.current_signals.getD []
  let strongSignals := signals.filter
    (fun signal => decide ((7 : ℚ) / 10 < signal.strength)
      && decide ((6 : ℚ) / 10 < signal.confidence))
  strongSignals.map mkDecision

/-- One arbitrage action produced by `analyzeArbitrage` (lines 73-84);
`timestamp` and the formatted `reason` string are presentation. -/
structure ArbAction where
  asset : String
  buyExchange : String
  sellExchange : String
  buyPrice : ℚ
  sellPrice : ℚ
  grossProfitPct : ℚ
  netProfitPct : ℚ
deriving DecidableEq

/-- The action object built for one profitable opportunity, with
`netProfit = opp.price_difference_pct - 0.2`. -/
def mkArbAction (opp : ArbOpp) : ArbAction :=
  ⟨opp.asset, opp.low_exchange, opp.high_exchange, opp.low_price,
    opp.high_price, opp.price_difference_pct,
    opp.price_difference_pct - (2 : ℚ) / 10⟩

/-- Model of `analyzeArbitrage(insights)` (lines 60-95): keep opportunities with
`price_difference_pct > 0.25`, and map each to an action. -/
def analyzeArbitrage (insights : Insights) : List ArbAction :=
  let opportunities := insights.arbitrage_opportunities.getD []
  let profitableArbitrage := opportunities.filter
    (fun opp => decide ((25 : ℚ) / 100 < opp.price_difference_pct))
  profitableArbitrage.map mkArbAction

/-- The `healthStatus` classification string. -/
inductive HealthStatus
  | healthy
  | degraded
  | poor
deriving DecidableEq

/-- The recommendation strings of `getMarketRecommendation`
(lines 122-139), one constructor per returned template. -/
inductive Recommendation
  | caution
  | highVolatility
  | tightSpreads
  | wideSpreads
  | normal
deriving DecidableEq

/-- Model of `getMarketRecommendation(health, overview)` (lines 122-139). -/
def getMarketRecommendation (health : ℚ) (overview : MarketOverview) : Recommendation :=
  if health < 60 then .caution
  else
    let volatility := jsOr0 overview.market_volatility
    let avgSpread := jsOr0 overview.average_spreads_L5
    if (5 : ℚ) / 100 < volatility then .highVolatility
    else if avgSpread < (1 : ℚ) / 100 then .tightSpreads
    else if (5 : ℚ) / 100 < avgSpread then .wideSpreads
    else .normal

/-- The `marketCondition` object of `analyzeMarketConditions`
(lines 106-114); `timestamp` is presentation. -/
structure MarketCondition where
  overallHealth : ℚ
  healthStatus : HealthStatus
  totalVolume : ℚ
  avgSpread : ℚ
  volatility : ℚ
  recommendation : Recommendation
deriving DecidableEq

/-- Model of `analyzeMarketConditions(insights)` (lines 97-120): average the
`health_score || 0` values (0 when there are none) and classify
`avgHealth > 80 ? healthy : avgHealth > 60 ? degraded : poor`. -/
def analyzeMarketConditions (insights : Insights) : MarketCondition :=
  let health := insights.exchange_health.getD []
  let overview := insights.market_overview.getD ⟨none, none, none⟩
  let exchangeHealthScores := health.map (fun h => jsOr0 h.health_score)
  let avgHealth : ℚ :=
    if 0 < exchangeHealthScores.length then
      exchangeHealthScores.sum / (exchangeHealthScores.length : ℚ)
    else 0
  { overallHealth := avgHealth
    healthStatus :=
      if 80 < avgHealth then .healthy
      else if 60 < avgHealth then .degraded
      else .poor
    totalVolume := jsOr0 overview.total_market_volume
    avgSpread := jsOr0 overview.average_spreads_L5
    volatility := jsOr0 overview.market_volatility
    recommendation := getMarketRecommendation avgHealth overview }

/-- One action item, a string from a fixed template (lines 184-204); each
constructor is one template with the data interpolated into it. -/
inductive ActionItem
  | wait
  | arbitrage (asset : String) (netProfitPct : ℚ)
  | signalAct (action : String) (asset : String) (exchange : String) (strength : ℚ)
  | market (recommendation : Recommendation)
  | hold
deriving DecidableEq

/-- Model of `generateActionItems(signals, arbitrage, market)` (lines 180-208):
a single caution item when health is `poor`; otherwise arbitrage actions
with `netProfitPct > 0.5`, then signals with `strength > 0.8`, then the
market line, then the hold item exactly when nothing else was pushed. -/
def generateActionItems (signals : List TradingDecision)
    (arbitrage : List ArbAction) (market : MarketCondition) : List ActionItem :=
  if market.healthStatus = .poor then [.wait]
  else
    let highProfitArbitrage := arbitrage.filter
      (fun a => decide ((5 : ℚ) / 10 < a.netProfitPct))
    let veryStrongSignals := signals.filter
      (fun s => decide ((8 : ℚ) / 10 < s.strength))
    let actions :=
      highProfitArbitrage.map (fun arb => ActionItem.arbitrage arb.asset arb.netProfitPct)
        ++ veryStrongSignals.map
          (fun signal => ActionItem.signalAct signal.action signal.asset
            signal.exchange signal.strength)
        ++ [ActionItem.market market.recommendation]
    if actions.length = 1 then actions ++ [.hold] else actions

/-- The analysis pipeline of `executeAnalysis` (lines 150-161) applied to
one insight document: the three independent sub-analyses and the action
items generated from them. -/
structure Recommendations where
  marketCondition : MarketCondition
  tradingSignals : List TradingDecision
  arbitrageOpportunities : List ArbAction
  actionItems : List ActionItem
deriving DecidableEq

/-- The pure core of `executeAnalysis(insights)` once the document has
been retrieved. -/
def executeAnalysis (insights : Insights) : Recommendations :=
  let signals := analyzeSignals insights
  let arbitrage := analyzeArbitrage insights
  let market := analyzeMarketConditions insights
  ⟨market, signals, arbitrage, generateActionItems signals arbitrage market⟩

/-- The per-asset price summary built by `getLatestPrices`
(lines 219-226 of `vercel_cache_solution.js`). -/
structure PriceSummary where
  price : ℚ
  timestamp : Nat
  spread : ℚ
  volume : ℚ
  recordCount : Nat
  fetchTime : Nat
deriving DecidableEq

/-- The fixed `'1min'` timeframe used by `getLatestPrices`. -/
def oneMin : JsStr := ['1', 'm', 'i', 'n']

/-- The summary object for one successful fetch: fields of the last
record plus the record count and fetch time. -/
def mkSummary (lastRecord : Record) (data : FetchResult) : PriceSummary :=
  ⟨lastRecord.mid, lastRecord.t, lastRecord.spread_L5_pct,
    lastRecord.vol_L50_bids + lastRecord.vol_L50_asks,
    data.records.length, data.metadata.fetchTime⟩

/-- One `(exchange, asset)` iteration of `getLatestPrices` (lines
214-232): fetch, summarise the last record on success, `null` on a thrown
error (a property access on an absent last record would also throw inside
the `try` and be caught, yielding `null`). The network environment is
keyed by exchange and asset. -/
def fetchPair (netAll : JsStr → JsStr → Nat → Nat → Option Body) (cache : Cache)
    (now : Nat) (date : JsStr) (options : FetchOptions)
    (exchange asset : JsStr) : Option PriceSummary × Cache :=
  let out := fetchCryptoData (netAll exchange asset) cache now
    exchange asset oneMin date options
  match out.result with
  | .ok data =>
    (match data.records.getLast? with
     | some lastRecord => some (mkSummary lastRecord data)
     | none => none,
     out.cache)
  | .error _ => (none, out.cache)

/-- The fixed exchange list of `getLatestPrices` (line 207). -/
def exchangesList : List JsStr :=
  [['c', 'o', 'i', 'n', 'b', 'a', 's', 'e'], ['k', 'r', 'a', 'k', 'e', 'n']]

/-- The fixed asset list of `getLatestPrices` (line 208). -/
def assetsList : List JsStr :=
  [['B', 'T', 'C'], ['E', 'T', 'H'], ['A', 'D', 'A'], ['X', 'R', 'P']]

/-- The inner asset loop of `getLatestPrices`, threading the cache. -/
def runAssets (netAll : JsStr → JsStr → Nat → Nat → Option Body) (now : Nat)
    (date : JsStr) (options : FetchOptions) (exchange : JsStr) :
    Cache → List JsStr → (List (JsStr × Option PriceSummary)) × Cache
  | cache, [] => ([], cache)
  | cache, asset :: rest =>
    let pr := fetchPair netAll cache now date options exchange asset
    let rest' := runAssets netAll now date options exchange pr.2 rest
    ((asset, pr.1) :: rest'.1, rest'.2)

/-- The outer exchange loop of `getLatestPrices`. -/
def runExchanges (netAll : JsStr → JsStr → Nat → Nat → Option Body) (now : Nat)
    (date : JsStr) (options : FetchOptions) :
    Cache → List JsStr → (List (JsStr × List (JsStr × Option PriceSummary))) × Cache
  | cache, [] => ([], cache)
  | cache, exchange :: rest =>
    let row := runAssets netAll now date options exchange cache assetsList
    let rest' := runExchanges netAll now date options row.2 rest
    ((exchange, row.1) :: rest'.1, rest'.2)

/-- Model of `getLatestPrices(date, options)` (lines 202-236): the nested results
object, one entry per exchange and asset. -/
def getLatestPrices (netAll : JsStr → JsStr → Nat → Nat → Option Body)
    (cache : Cache) (now : Nat) (date : JsStr) (options : FetchOptions) :
    List (JsStr × List (JsStr × Option PriceSummary)) :=
  (runExchanges netAll now date options cache exchangesList).1

/-- Reading `results[exchange]` from the returned object. -/
def lookupRow (results : List (JsStr × List (JsStr × Option PriceSummary)))
    (exchange : JsStr) : Option (List (JsStr × Option PriceSummary)) :=
  (results.find? (fun row => decide (row.1 = exchange))).map Prod.snd

/-- Reading `results[exchange][asset]` from one row. -/
def lookupEntry (row : List (JsStr × Option PriceSummary)) (asset : JsStr) :
    Option (Option PriceSummary) :=
  (row.find? (fun e => decide (e.1 = asset))).map Prod.snd

/-- Well-formedness of a cache: every stored result carries at least one
record. The fetcher only ever stores winning candidates, which are built
from non-empty record lists, so this is an invariant of every reachable
cache. -/
def WFCache (cache : Cache) : Prop := ∀ e ∈ cache, e.2.records ≠ []

/-!
Lemma layer: properties of the decimal rendering, of cache keys, and of
the association-list `Map` operations.
-/

theorem digitChar_ne_dash (d : Nat) : digitChar d ≠ '-' := by
  unfold digitChar
  split <;> decide

theorem unDigit_digitChar {d : Nat} (hd : d < 10) : unDigit (digitChar d) = d := by
  interval_cases d <;> decide

theorem natDigitsAux_eq (fuel : Nat) :
    ∀ n : Nat, n ≤ fuel → natDigitsAux fuel n = Nat.digits 10 n := by
  induction fuel with
  | zero =>
    intro n hn
    have : n = 0 := Nat.le_zero.mp hn
    subst this
    simp [natDigitsAux]
  | succ fuel ih =>
    intro n hn
    cases n with
    | zero => simp [natDigitsAux]
    | succ m =>
      have hdiv : (m + 1) / 10 ≤ fuel := by
        have h1 : (m + 1) / 10 < m + 1 := Nat.div_lt_self (Nat.succ_pos m) (by norm_num)
        omega
      rw [natDigitsAux, ih _ hdiv,
        Nat.digits_def' (by norm_num : (1 : ℕ) < 10) (Nat.succ_pos m)]

theorem natDigits_eq (n : Nat) : natDigits n = Nat.digits 10 n :=
  natDigitsAux_eq n n le_rfl

theorem dash_not_mem_natChars (n : Nat) : '-' ∉ natChars n := by
  unfold natChars
  split
  · decide
  · intro h
    obtain ⟨d, _, hd⟩ := List.mem_map.mp h
    exact digitChar_ne_dash d hd

theorem natChars_ne_nil (n : Nat) : natChars n ≠ [] := by
  unfold natChars
  split
  · simp
  · rename_i h
    have : Nat.digits 10 n ≠ [] := Nat.digits_ne_nil_iff_ne_zero.mpr h
    simp [natDigits_eq, this]

theorem decode_natChars (n : Nat) :
    Nat.ofDigits 10 ((natChars n).reverse.map unDigit) = n := by
  unfold natChars
  split
  · rename_i h
    subst h
    simp [Nat.ofDigits, unDigit]
  · rw [natDigits_eq]
    simp only [List.map_reverse, List.map_map, List.reverse_reverse]
    have hmap : (Nat.digits 10 n).map (unDigit ∘ digitChar) = Nat.digits 10 n := by
      have h1 : (Nat.digits 10 n).map (unDigit ∘ digitChar) = (Nat.digits 10 n).map id :=
        List.map_congr_left (fun d hd =>
          unDigit_digitChar (Nat.digits_lt_base (by norm_num) hd))
      rw [h1, List.map_id]
    rw [hmap]
    exact_mod_cast Nat.ofDigits_digits 10 n

theorem natChars_inj {m n : Nat} (h : natChars m = natChars n) : m = n := by
  have := decode_natChars m
  rw [h, decode_natChars n] at this
  exact this.symm

theorem suffix_total {α : Type} {l s1 s2 : List α}
    (h1 : s1 <:+ l) (h2 : s2 <:+ l) : s1 <:+ s2 ∨ s2 <:+ s1 := by
  induction l with
  | nil =>
    rw [List.suffix_nil] at h1 h2
    subst h1; subst h2
    simp
  | cons a t ih =>
    rcases List.suffix_cons_iff.mp h1 with h1' | h1'
    · right
      rw [h1']
      exact h2
    · rcases List.suffix_cons_iff.mp h2 with h2' | h2'
      · left
        rw [h2']
        exact List.suffix_cons_iff.mpr (Or.inr h1')
      · exact ih h1' h2'

theorem bucket_suffix_iff (p : JsStr) (b b' : Nat) :
    (('-' :: natChars b') <:+ bucketKey p b) ↔ b' = b := by
  unfold bucketKey
  constructor
  · intro h
    have h2 : ('-' :: natChars b) <:+ (p ++ '-' :: natChars b) :=
      List.suffix_append p ('-' :: natChars b)
    rcases suffix_total h h2 with hc | hc
    · rcases List.suffix_cons_iff.mp hc with he | ht
      · exact natChars_inj (List.cons.inj he).2
      · exact absurd (ht.subset (List.mem_cons_self _ _)) (dash_not_mem_natChars b)
    · rcases List.suffix_cons_iff.mp hc with he | ht
      · exact (natChars_inj (List.cons.inj he).2).symm
      · exact absurd (ht.subset (List.mem_cons_self _ _)) (dash_not_mem_natChars b')
  · rintro rfl
    exact List.suffix_append p ('-' :: natChars b')

theorem bucketKey_bucket_inj {p p' : JsStr} {b b' : Nat}
    (h : bucketKey p b = bucketKey p' b') : b = b' := by
  have : ('-' :: natChars b) <:+ bucketKey p' b' := by
    rw [← h]
    exact List.suffix_append p ('-' :: natChars b)
  exact (bucket_suffix_iff p' b' b).mp this

theorem mapGet_of_mem_unique {m : Cache} {k : JsStr} {v : FetchResult}
    (hmem : (k, v) ∈ m) (huniq : ∀ e ∈ m, e.1 = k → e = (k, v)) :
    mapGet m k = some v := by
  induction m with
  | nil => cases hmem
  | cons e es ih =>
    by_cases he : e.1 = k
    · have heq : e = (k, v) := huniq e (List.mem_cons_self e es) he
      subst heq
      unfold mapGet
      rw [List.find?_cons_of_pos _ (by simp)]
      rfl
    · have hmem' : (k, v) ∈ es := by
        rcases List.mem_cons.mp hmem with h | h
        · exact absurd (by rw [← h]) he
        · exact h
      have huniq' : ∀ e' ∈ es, e'.1 = k → e' = (k, v) :=
        fun e' he' => huniq e' (List.mem_cons_of_mem e he')
      have hrec := ih hmem' huniq'
      unfold mapGet
      rw [List.find?_cons_of_neg _ (by simpa using he)]
      exact hrec

theorem mapSet_mem (m : Cache) (k : JsStr) (v : FetchResult) :
    (k, v) ∈ mapSet m k v := by
  unfold mapSet
  split
  · rename_i h
    obtain ⟨e, he, hk⟩ := List.any_eq_true.mp h
    have hk' : e.1 = k := by simpa using hk
    refine List.mem_map.mpr ⟨e, he, ?_⟩
    rw [if_pos hk']
  · simp

theorem mapSet_unique (m : Cache) (k : JsStr) (v : FetchResult) :
    ∀ e ∈ mapSet m k v, e.1 = k → e = (k, v) := by
  intro e he hk
  unfold mapSet at he
  split at he
  · obtain ⟨e', he', hf⟩ := List.mem_map.mp he
    by_cases h' : e'.1 = k
    · rw [if_pos h'] at hf
      exact hf.symm
    · rw [if_neg h'] at hf
      exact absurd (hf ▸ hk) h'
  · rename_i h
    rcases List.mem_append.mp he with h' | h'
    · exact absurd (List.any_eq_true.mpr ⟨e, h', by simpa using hk⟩) h
    · exact List.mem_singleton.mp h'

theorem mapGet_filter_some {m : Cache} {q : JsStr × FetchResult → Bool}
    {k : JsStr} {v : FetchResult} (h : mapGet (m.filter q) k = some v) :
    q (k, v) = true := by
  unfold mapGet at h
  cases hf : (m.filter q).find? (fun e => decide (e.1 = k)) with
  | none => rw [hf] at h; cases h
  | some e =>
    rw [hf] at h
    have hv : e.2 = v := Option.some.inj h
    have h1 := List.find?_some hf
    have hk : e.1 = k := by simpa using h1
    have hq : q e = true := (List.mem_filter.mp (List.mem_of_find?_eq_some hf)).2
    have he : (k, v) = e := by
      cases e with
      | mk a b =>
        simp only [Prod.mk.injEq]
        exact ⟨hk.symm, hv.symm⟩
    rw [he]
    exact hq

theorem stored_lookup (cache : Cache) (k : JsStr) (v : FetchResult)
    (q : JsStr × FetchResult → Bool) (hq : q (k, v) = true) :
    mapGet ((mapSet cache k v).filter q) k = some v := by
  apply mapGet_of_mem_unique
  · exact List.mem_filter.mpr ⟨mapSet_mem cache k v, hq⟩
  · intro e he hk
    exact mapSet_unique cache k v e (List.mem_filter.mp he).1 hk

/-!
The candidate-loop invariant and the unfolding lemmas for
`fetchCryptoData`.
-/

theorem isFresher_true {t l : Nat} (h : isFresher t (some l) = true) :
    l = 0 ∨ l < t := by
  unfold isFresher at h
  simpa using h

theorem isFresher_false {t l : Nat} (h : isFresher t (some l) = false) :
    l ≠ 0 ∧ t ≤ l := by
  unfold isFresher at h
  simp at h
  omega

theorem candidateStep_eq (net : Nat → Nat → Option Body) (now : Nat)
    (s : LoopState) (i : Nat) :
    candidateStep net now s i =
      match candidateRecords net i with
      | none =>
        { s with attempts := s.attempts ++ [(fetchWithCacheBusting (net i) 2 0).2] }
      | some records =>
        if isFresher (lastT records) s.latestTimestamp then
          { bestResult := some ⟨records, ⟨i, lastT records, records.length, now⟩⟩
            latestTimestamp := some (lastT records)
            attempts := s.attempts ++ [(fetchWithCacheBusting (net i) 2 0).2] }
        else
          { s with attempts := s.attempts ++ [(fetchWithCacheBusting (net i) 2 0).2] } := by
  unfold candidateStep candidateRecords
  dsimp only
  cases hf1 : (fetchWithCacheBusting (net i) 2 0).1 with
  | none => rfl
  | some body =>
    dsimp only

theorem candidateStep_attempts (net : Nat → Nat → Option Body) (now : Nat)
    (s : LoopState) (i : Nat) :
    (candidateStep net now s i).attempts =
      s.attempts ++ [(fetchWithCacheBusting (net i) 2 0).2] := by
  rw [candidateStep_eq]
  cases candidateRecords net i with
  | none => rfl
  | some records =>
    dsimp only
    split <;> rfl

theorem candidateStep_inv (net : Nat → Nat → Option Body) (now : Nat)
    (s : LoopState) (i : Nat) (seen : List Nat)
    (h : LoopInvP net now seen s) :
    LoopInvP net now (seen ++ [i]) (candidateStep net now s i) := by
  rw [candidateStep_eq]
  cases hcr : candidateRecords net i with
  | none =>
    rcases h with ⟨hb, hl, hall⟩ | ⟨r, hb, hl, ht, hc, hf, hu, hcr', hbound⟩
    · left
      refine ⟨hb, hl, ?_⟩
      intro j hj
      rcases List.mem_append.mp hj with hj | hj
      · exact hall j hj
      · rw [List.mem_singleton.mp hj]; exact hcr
    · right
      refine ⟨r, hb, hl, ht, hc, hf, List.mem_append_left _ hu, hcr', ?_⟩
      intro j hj rs hrs
      rcases List.mem_append.mp hj with hj | hj
      · exact hbound j hj rs hrs
      · rw [List.mem_singleton.mp hj] at hrs
        rw [hcr] at hrs
        cases hrs
  | some records =>
    dsimp only
    split
    · rename_i hfr
      right
      refine ⟨⟨records, ⟨i, lastT records, records.length, now⟩⟩,
        rfl, rfl, rfl, rfl, rfl,
        List.mem_append_right _ (List.mem_singleton.mpr rfl), hcr, ?_⟩
      intro j hj rs hrs
      rcases List.mem_append.mp hj with hj | hj
      · rcases h with ⟨hb, hl, hall⟩ | ⟨r, hb, hl, ht, hc, hf, hu, hcr', hbound⟩
        · rw [hall j hj] at hrs; cases hrs
        · have h1 : lastT rs ≤ r.metadata.timestamp := hbound j hj rs hrs
          rw [hl] at hfr
          have h2 := isFresher_true hfr
          show lastT rs ≤ lastT records
          rcases h2 with h2 | h2 <;> omega
      · rw [List.mem_singleton.mp hj] at hrs
        rw [hcr] at hrs
        rw [(Option.some.inj hrs).symm]
    · rename_i hfr
      have hfr' := Bool.not_eq_true _ ▸ hfr
      rcases h with ⟨hb, hl, hall⟩ | ⟨r, hb, hl, ht, hc, hf, hu, hcr', hbound⟩
      · exfalso
        rw [hl] at hfr
        exact hfr rfl
      · right
        refine ⟨r, hb, hl, ht, hc, hf, List.mem_append_left _ hu, hcr', ?_⟩
        intro j hj rs hrs
        rcases List.mem_append.mp hj with hj | hj
        · exact hbound j hj rs hrs
        · rw [List.mem_singleton.mp hj] at hrs
          rw [hcr] at hrs
          have hrr : rs = records := (Option.some.inj hrs).symm
          rw [hl] at hfr
          have h2 := isFresher_false (Bool.eq_false_iff.mpr hfr)
          rw [hrr]
          omega

theorem foldl_candidate_inv (net : Nat → Nat → Option Body) (now : Nat)
    (l : List Nat) :
    ∀ seen s, LoopInvP net now seen s →
      LoopInvP net now (seen ++ l) (l.foldl (candidateStep net now) s) := by
  induction l with
  | nil => intro seen s h; simpa using h
  | cons i t ih =>
    intro seen s h
    have h1 := candidateStep_inv net now s i seen h
    have h2 := ih (seen ++ [i]) (candidateStep net now s i) h1
    simpa [List.append_assoc] using h2

theorem runCandidates_inv (net : Nat → Nat → Option Body) (now : Nat) :
    LoopInvP net now urlIndices (runCandidates net now) := by
  have h0 : LoopInvP net now [] ⟨none, none, []⟩ := by
    left
    exact ⟨rfl, rfl, by intro i hi; cases hi⟩
  have h1 := foldl_candidate_inv net now urlIndices [] ⟨none, none, []⟩ h0
  simpa [runCandidates] using h1

theorem foldl_candidate_attempts (net : Nat → Nat → Option Body) (now : Nat)
    (l : List Nat) :
    ∀ s : LoopState, (l.foldl (candidateStep net now) s).attempts =
      s.attempts ++ l.map (fun i => (fetchWithCacheBusting (net i) 2 0).2) := by
  induction l with
  | nil => intro s; simp
  | cons i t ih =>
    intro s
    rw [List.foldl_cons, ih, candidateStep_attempts]
    simp

theorem runCandidates_attempts (net : Nat → Nat → Option Body) (now : Nat) :
    (runCandidates net now).attempts =
      urlIndices.map (fun i => (fetchWithCacheBusting (net i) 2 0).2) := by
  unfold runCandidates
  rw [foldl_candidate_attempts]
  rfl

theorem fetchWithCacheBusting_allfail (att : Nat → Option Body)
    (h : ∀ k, att k = none) : fetchWithCacheBusting att 2 0 = (none, 2) := by
  simp [fetchWithCacheBusting, h]

theorem fetchCryptoData_hit (net : Nat → Nat → Option Body) (cache : Cache)
    (now : Nat) (exchange asset timeframe date : JsStr) (options : FetchOptions)
    (r : FetchResult) (huse : options.useCache = true)
    (h : mapGet cache (cacheKey (mkPath exchange asset timeframe date) now) = some r) :
    fetchCryptoData net cache now exchange asset timeframe date options =
      ⟨.ok r, cache, [], false, false⟩ := by
  unfold fetchCryptoData
  dsimp only
  rw [huse, if_pos rfl, h]

theorem fetchCryptoData_miss (net : Nat → Nat → Option Body) (cache : Cache)
    (now : Nat) (exchange asset timeframe date : JsStr) (options : FetchOptions)
    (h : (if options.useCache then
        mapGet cache (cacheKey (mkPath exchange asset timeframe date) now)
      else none) = none) :
    fetchCryptoData net cache now exchange asset timeframe date options =
      match (runCandidates net now).bestResult with
      | none =>
        ⟨.error .fetchExhausted, cache, (runCandidates net now).attempts, false, false⟩
      | some best =>
        ⟨.ok best,
          (if options.useCache then
            (mapSet cache (cacheKey (mkPath exchange asset timeframe date) now)
              best).filter
              (fun e => jsEndsWith e.1 ('-' :: natChars (now / cacheTimeout)))
          else cache),
          (runCandidates net now).attempts,
          options.consistencyCheck
            && decide ((3600000 : ℤ) < (now : ℤ) - (lastT best.records : ℤ)),
          options.consistencyCheck && decide (best.records.length < 10)⟩ := by
  unfold fetchCryptoData
  dsimp only
  rw [h]

/-!
Claim theorems.
-/

/-- C1: for every `fetchCryptoData` call that reaches the network round (a
cache miss) and succeeds, the returned result is the one produced by a
candidate URL that yielded at least one valid record, its
`metadata.timestamp` is that candidate's last record's declared `t`, and
that timestamp is maximal among the last-record timestamps of all
candidates that yielded at least one valid record in the round — the
winner is determined by payload timestamps, not by URL list position. -/
theorem fetch_returns_freshest (net : Nat → Nat → Option Body) (cache : Cache)
    (now : Nat) (exchange asset timeframe date : JsStr) (options : FetchOptions)
    (r : FetchResult)
    (hmiss : (if options.useCache then
        mapGet cache (cacheKey (mkPath exchange asset timeframe date) now)
      else none) = none)
    (hok : (fetchCryptoData net cache now exchange asset timeframe date options).result
      = .ok r) :
    r.metadata.url ∈ urlIndices ∧
    candidateRecords net r.metadata.url = some r.records ∧
    r.metadata.timestamp = lastT r.records ∧
    ∀ i ∈ urlIndices, ∀ rs, candidateRecords net i = some rs →
      lastT rs ≤ r.metadata.timestamp := by
  rw [fetchCryptoData_miss net cache now exchange asset timeframe date options hmiss]
    at hok
  cases hbest : (runCandidates net now).bestResult with
  | none => rw [hbest] at hok; cases hok
  | some best =>
    rw [hbest] at hok
    have hbr : best = r := Except.ok.inj hok
    subst hbr
    rcases runCandidates_inv net now with ⟨hb, _, _⟩ |
      ⟨r', hb, hl, ht, hc, hf, hu, hcr', hbound⟩
    · rw [hb] at hbest; cases hbest
    · rw [hb] at hbest
      have : r' = best := Option.some.inj hbest
      subst this
      exact ⟨hu, hcr', ht, hbound⟩

/-- C1 witness: a concrete round in which candidate 0 answers with last
timestamp 5 and candidate 1 with last timestamp 9; the call returns
candidate 1's records with timestamp 9, the maximum. -/
theorem fetch_returns_freshest_witness :
    (⟨[⟨9, 0, 0, 0, 0⟩], ⟨1, 9, 1, 0⟩⟩ : FetchResult).metadata.url ∈ urlIndices ∧
    candidateRecords
        (fun i _ =>
          if i = 0 then some [BodyLine.record ⟨5, 0, 0, 0, 0⟩]
          else if i = 1 then some [BodyLine.record ⟨9, 0, 0, 0, 0⟩] else none)
        (⟨[⟨9, 0, 0, 0, 0⟩], ⟨1, 9, 1, 0⟩⟩ : FetchResult).metadata.url
      = some [⟨9, 0, 0, 0, 0⟩] ∧
    (⟨[⟨9, 0, 0, 0, 0⟩], ⟨1, 9, 1, 0⟩⟩ : FetchResult).metadata.timestamp
      = lastT [⟨9, 0, 0, 0, 0⟩] ∧
    ∀ i ∈ urlIndices, ∀ rs,
      candidateRecords
        (fun i _ =>
          if i = 0 then some [BodyLine.record ⟨5, 0, 0, 0, 0⟩]
          else if i = 1 then some [BodyLine.record ⟨9, 0, 0, 0, 0⟩] else none) i
        = some rs →
      lastT rs ≤ (⟨[⟨9, 0, 0, 0, 0⟩], ⟨1, 9, 1, 0⟩⟩ : FetchResult).metadata.timestamp :=
  fetch_returns_freshest
    (fun i _ =>
      if i = 0 then some [BodyLine.record ⟨5, 0, 0, 0, 0⟩]
      else if i = 1 then some [BodyLine.record ⟨9, 0, 0, 0, 0⟩] else none)
    [] 0 ['c'] ['B'] ['m'] ['d'] {} ⟨[⟨9, 0, 0, 0, 0⟩], ⟨1, 9, 1, 0⟩⟩
    (by decide) (by decide)

/-- C2 counterexample: with the default options (so the `maxRetries`
option is 3) and every candidate URL failing on every attempt, the call
fails with `FetchExhausted` but each of the three candidate URLs is
attempted exactly 2 times — not `maxRetries` times as the claim states. -/
theorem fetch_retry_count_cex :
    (fetchCryptoData (fun _ _ => none) [] 0 ['c'] ['B'] ['m'] ['d'] {}).result
        = .error .fetchExhausted ∧
    (fetchCryptoData (fun _ _ => none) [] 0 ['c'] ['B'] ['m'] ['d'] {}).attempts
        = [2, 2, 2] ∧
    ({} : FetchOptions).maxRetries = 3 ∧
    (fetchCryptoData (fun _ _ => none) [] 0 ['c'] ['B'] ['m'] ['d'] {}).attempts
        ≠ List.replicate 3 ({} : FetchOptions).maxRetries := by
  refine ⟨by decide, by decide, rfl, by decide⟩

/-- C2 (amended): if every candidate URL fails on every attempt and the
call reaches the network round, `fetchCryptoData` fails with
`FetchExhausted` and each of the three candidate URLs is attempted exactly
2 times — the hardcoded per-URL cap passed on line 109; the `maxRetries`
option (default 3) is destructured but never used. -/
theorem fetch_exhausted_two_attempts (net : Nat → Nat → Option Body)
    (cache : Cache) (now : Nat) (exchange asset timeframe date : JsStr)
    (options : FetchOptions)
    (hfail : ∀ i k, net i k = none)
    (hmiss : (if options.useCache then
        mapGet cache (cacheKey (mkPath exchange asset timeframe date) now)
      else none) = none) :
    (fetchCryptoData net cache now exchange asset timeframe date options).result
        = .error .fetchExhausted ∧
    (fetchCryptoData net cache now exchange asset timeframe date options).attempts
        = [2, 2, 2] := by
  have hcr : ∀ i, candidateRecords net i = none := by
    intro i
    unfold candidateRecords
    rw [fetchWithCacheBusting_allfail (net i) (hfail i)]
  have hbest : (runCandidates net now).bestResult = none := by
    rcases runCandidates_inv net now with ⟨hb, _, _⟩ |
      ⟨r, _, _, _, _, _, _, hcr', _⟩
    · exact hb
    · rw [hcr r.metadata.url] at hcr'; cases hcr'
  rw [fetchCryptoData_miss net cache now exchange asset timeframe date options hmiss,
    hbest]
  refine ⟨rfl, ?_⟩
  show (runCandidates net now).attempts = [2, 2, 2]
  rw [runCandidates_attempts]
  show [(fetchWithCacheBusting (net 0) 2 0).2, (fetchWithCacheBusting (net 1) 2 0).2,
    (fetchWithCacheBusting (net 2) 2 0).2] = [2, 2, 2]
  rw [fetchWithCacheBusting_allfail (net 0) (hfail 0),
    fetchWithCacheBusting_allfail (net 1) (hfail 1),
    fetchWithCacheBusting_allfail (net 2) (hfail 2)]

/-- C2 witness: the amended statement at a concrete all-failing network. -/
theorem fetch_exhausted_two_attempts_witness :
    (fetchCryptoData (fun _ _ => none) [] 30001 ['k'] ['E'] ['m'] ['d'] {}).result
        = .error .fetchExhausted ∧
    (fetchCryptoData (fun _ _ => none) [] 30001 ['k'] ['E'] ['m'] ['d'] {}).attempts
        = [2, 2, 2] :=
  fetch_exhausted_two_attempts (fun _ _ => none) [] 30001 ['k'] ['E'] ['m'] ['d'] {}
    (fun _ _ => rfl) (by decide)

/-- C9: when `useCache` is false the in-memory cache is neither written —
the cache after the call is the cache before it — nor read: the returned
result and the attempt counts are the same whatever the cache contains. -/
theorem fetch_no_cache_frame (net : Nat → Nat → Option Body)
    (cache cache2 : Cache) (now : Nat) (exchange asset timeframe date : JsStr)
    (options : FetchOptions) (h : options.useCache = false) :
    (fetchCryptoData net cache now exchange asset timeframe date options).cache
        = cache ∧
    (fetchCryptoData net cache now exchange asset timeframe date options).result
        = (fetchCryptoData net cache2 now exchange asset timeframe date options).result ∧
    (fetchCryptoData net cache now exchange asset timeframe date options).attempts
        = (fetchCryptoData net cache2 now exchange asset timeframe date options).attempts := by
  have hm1 : (if options.useCache then
      mapGet cache (cacheKey (mkPath exchange asset timeframe date) now)
    else none) = none := by rw [h]; rfl
  have hm2 : (if options.useCache then
      mapGet cache2 (cacheKey (mkPath exchange asset timeframe date) now)
    else none) = none := by rw [h]; rfl
  rw [fetchCryptoData_miss net cache now exchange asset timeframe date options hm1,
    fetchCryptoData_miss net cache2 now exchange asset timeframe date options hm2]
  cases hbest : (runCandidates net now).bestResult with
  | none => exact ⟨rfl, rfl, rfl⟩
  | some best =>
    refine ⟨?_, rfl, rfl⟩
    show (if options.useCache then _ else cache) = cache
    rw [h]
    rfl

/-- C9 witness: the frame property at a concrete network and two distinct
caches. -/
theorem fetch_no_cache_frame_witness :
    (fetchCryptoData (fun _ _ => some [BodyLine.record ⟨7, 1, 0, 0, 0⟩])
        [(bucketKey ['x'] 0, ⟨[⟨3, 0, 0, 0, 0⟩], ⟨0, 3, 1, 0⟩⟩)] 0
        ['c'] ['B'] ['m'] ['d'] { useCache := false }).cache
      = [(bucketKey ['x'] 0, ⟨[⟨3, 0, 0, 0, 0⟩], ⟨0, 3, 1, 0⟩⟩)] ∧
    (fetchCryptoData (fun _ _ => some [BodyLine.record ⟨7, 1, 0, 0, 0⟩])
        [(bucketKey ['x'] 0, ⟨[⟨3, 0, 0, 0, 0⟩], ⟨0, 3, 1, 0⟩⟩)] 0
        ['c'] ['B'] ['m'] ['d'] { useCache := false }).result
      = (fetchCryptoData (fun _ _ => some [BodyLine.record ⟨7, 1, 0, 0, 0⟩])
        [] 0 ['c'] ['B'] ['m'] ['d'] { useCache := false }).result ∧
    (fetchCryptoData (fun _ _ => some [BodyLine.record ⟨7, 1, 0, 0, 0⟩])
        [(bucketKey ['x'] 0, ⟨[⟨3, 0, 0, 0, 0⟩], ⟨0, 3, 1, 0⟩⟩)] 0
        ['c'] ['B'] ['m'] ['d'] { useCache := false }).attempts
      = (fetchCryptoData (fun _ _ => some [BodyLine.record ⟨7, 1, 0, 0, 0⟩])
        [] 0 ['c'] ['B'] ['m'] ['d'] { useCache := false }).attempts :=
  fetch_no_cache_frame (fun _ _ => some [BodyLine.record ⟨7, 1, 0, 0, 0⟩])
    [(bucketKey ['x'] 0, ⟨[⟨3, 0, 0, 0, 0⟩], ⟨0, 3, 1, 0⟩⟩)] [] 0
    ['c'] ['B'] ['m'] ['d'] { useCache := false } rfl

/-- C4: cache discipline of `fetchCryptoData` with `useCache` enabled.
After a storing call (cache miss that succeeds with result `r`):
(i) the slot for the same `(path, bucket)` key holds `r`;
(ii) a second call with the same path whose clock falls in the same time
bucket returns the stored result with no network attempt and leaves the
cache unchanged;
(iii) after the store, no slot keyed to any other bucket survives — stale
buckets are pruned on the write;
(iv) keys of different buckets never collide, so a stored result is never
returned by a call whose time bucket differs from the storing call's. -/
theorem cache_bucket_contract (net1 net2 : Nat → Nat → Option Body)
    (cache : Cache) (now1 now2 : Nat) (exchange asset timeframe date : JsStr)
    (options : FetchOptions) (r : FetchResult)
    (huse : options.useCache = true)
    (hmiss : mapGet cache (cacheKey (mkPath exchange asset timeframe date) now1) = none)
    (hok : (fetchCryptoData net1 cache now1 exchange asset timeframe date options).result
      = .ok r) :
    mapGet (fetchCryptoData net1 cache now1 exchange asset timeframe date options).cache
        (cacheKey (mkPath exchange asset timeframe date) now1) = some r ∧
    (now2 / cacheTimeout = now1 / cacheTimeout →
      fetchCryptoData net2
          (fetchCryptoData net1 cache now1 exchange asset timeframe date options).cache
          now2 exchange asset timeframe date options =
        ⟨.ok r,
          (fetchCryptoData net1 cache now1 exchange asset timeframe date options).cache,
          [], false, false⟩) ∧
    (∀ p b, b ≠ now1 / cacheTimeout →
      mapGet (fetchCryptoData net1 cache now1 exchange asset timeframe date options).cache
        (bucketKey p b) = none) ∧
    (∀ p1 p2 b1 b2, bucketKey p1 b1 = bucketKey p2 b2 → b1 = b2) := by
  have hmiss' : (if options.useCache then
      mapGet cache (cacheKey (mkPath exchange asset timeframe date) now1)
    else none) = none := by rw [huse, if_pos rfl]; exact hmiss
  have hout := fetchCryptoData_miss net1 cache now1 exchange asset timeframe date
    options hmiss'
  rw [hout] at hok
  cases hbest : (runCandidates net1 now1).bestResult with
  | none => rw [hbest] at hok; cases hok
  | some best =>
    rw [hbest] at hok
    have hbr : best = r := Except.ok.inj hok
    subst hbr
    have hcache : (fetchCryptoData net1 cache now1 exchange asset timeframe date
        options).cache =
      (mapSet cache (cacheKey (mkPath exchange asset timeframe date) now1)
        best).filter
        (fun e => jsEndsWith e.1 ('-' :: natChars (now1 / cacheTimeout))) := by
      rw [hout, hbest]
      show (if options.useCache then _ else cache) = _
      rw [huse, if_pos rfl]
    have hstored : mapGet (fetchCryptoData net1 cache now1 exchange asset timeframe
        date options).cache
        (cacheKey (mkPath exchange asset timeframe date) now1) = some best := by
      rw [hcache]
      apply stored_lookup
      unfold jsEndsWith cacheKey
      exact decide_eq_true
        ((bucket_suffix_iff (mkPath exchange asset timeframe date)
          (now1 / cacheTimeout) (now1 / cacheTimeout)).mpr rfl)
    refine ⟨hstored, ?_, ?_, ?_⟩
    · intro hb2
      have hk2 : cacheKey (mkPath exchange asset timeframe date) now2
          = cacheKey (mkPath exchange asset timeframe date) now1 := by
        unfold cacheKey
        rw [hb2]
      exact fetchCryptoData_hit net2 _ now2 exchange asset timeframe date options
        best huse (by rw [hk2]; exact hstored)
    · intro p b hb
      rw [hcache]
      cases hg : mapGet ((mapSet cache
          (cacheKey (mkPath exchange asset timeframe date) now1) best).filter
          (fun e => jsEndsWith e.1 ('-' :: natChars (now1 / cacheTimeout))))
          (bucketKey p b) with
      | none => rfl
      | some v =>
        have hq := mapGet_filter_some hg
        have hsfx : ('-' :: natChars (now1 / cacheTimeout)) <:+ bucketKey p b := by
          have := hq
          unfold jsEndsWith at this
          exact of_decide_eq_true this
        exact absurd ((bucket_suffix_iff p b (now1 / cacheTimeout)).mp hsfx).symm hb
    · intro p1 p2 b1 b2 h
      exact bucketKey_bucket_inj h

/-- C4 witness: a concrete storing call at clock 0 (bucket 0) followed by
a same-bucket call at clock 10000; the second call returns the stored
result with no attempts and an unchanged cache, and the stored slot is
unreadable from bucket 1. -/
theorem cache_bucket_contract_witness :
    mapGet (fetchCryptoData (fun _ _ => some [BodyLine.record ⟨7, 1, 0, 0, 0⟩])
        [] 0 ['c'] ['B'] ['m'] ['d'] {}).cache
        (cacheKey (mkPath ['c'] ['B'] ['m'] ['d']) 0)
      = some ⟨[⟨7, 1, 0, 0, 0⟩], ⟨0, 7, 1, 0⟩⟩ ∧
    fetchCryptoData (fun _ _ => none)
        (fetchCryptoData (fun _ _ => some [BodyLine.record ⟨7, 1, 0, 0, 0⟩])
          [] 0 ['c'] ['B'] ['m'] ['d'] {}).cache
        10000 ['c'] ['B'] ['m'] ['d'] {} =
      ⟨.ok ⟨[⟨7, 1, 0, 0, 0⟩], ⟨0, 7, 1, 0⟩⟩,
        (fetchCryptoData (fun _ _ => some [BodyLine.record ⟨7, 1, 0, 0, 0⟩])
          [] 0 ['c'] ['B'] ['m'] ['d'] {}).cache, [], false, false⟩ ∧
    mapGet (fetchCryptoData (fun _ _ => some [BodyLine.record ⟨7, 1, 0, 0, 0⟩])
        [] 0 ['c'] ['B'] ['m'] ['d'] {}).cache
        (bucketKey (mkPath ['c'] ['B'] ['m'] ['d']) 1) = none := by
  have h := cache_bucket_contract
    (fun _ _ => some [BodyLine.record ⟨7, 1, 0, 0, 0⟩]) (fun _ _ => none)
    [] 0 10000 ['c'] ['B'] ['m'] ['d'] {} ⟨[⟨7, 1, 0, 0, 0⟩], ⟨0, 7, 1, 0⟩⟩
    rfl (by decide) (by decide)
  exact ⟨h.1, h.2.1 (by decide), h.2.2.1 (mkPath ['c'] ['B'] ['m'] ['d']) 1 (by decide)⟩

unseal Rat.mul Rat.inv Rat.add Rat.sub in
/-- C8: the signal filter keeps exactly the signals with
`strength > 0.7` and `confidence > 0.6`; on the documented two-signal
example only the first signal is kept. -/
theorem signal_filter_exact :
    (∀ insights d, d ∈ analyzeSignals insights ↔
      ∃ s ∈ insights.current_signals.getD [],
        (7 : ℚ) / 10 < s.strength ∧ (6 : ℚ) / 10 < s.confidence ∧ d = mkDecision s) ∧
    analyzeSignals ⟨some [⟨"e1", "BTC", "bullish", 8/10, 7/10, "spread"⟩,
        ⟨"e2", "ETH", "bearish", 5/10, 9/10, "spread"⟩], none, none, none⟩
      = [mkDecision ⟨"e1", "BTC", "bullish", 8/10, 7/10, "spread"⟩] := by
  constructor
  · intro insights d
    unfold analyzeSignals
    constructor
    · intro hd
      obtain ⟨s, hs, hds⟩ := List.mem_map.mp hd
      have hf := List.mem_filter.mp hs
      have hb := hf.2
      rw [Bool.and_eq_true] at hb
      exact ⟨s, hf.1, of_decide_eq_true hb.1, of_decide_eq_true hb.2, hds.symm⟩
    · rintro ⟨s, hs, h1, h2, rfl⟩
      refine List.mem_map.mpr ⟨s, List.mem_filter.mpr ⟨hs, ?_⟩, rfl⟩
      rw [Bool.and_eq_true]
      exact ⟨decide_eq_true h1, decide_eq_true h2⟩
  · decide

unseal Rat.mul Rat.inv Rat.add Rat.sub in
/-- C6 counterexample: two exchanges with health scores 60 and 60 average
to exactly 60, which the code classifies as `poor`, while the claim
places 60 inside the degraded band 60-80. -/
theorem market_health_boundary_cex :
    (analyzeMarketConditions ⟨none, none, some [⟨some 60⟩, ⟨some 60⟩],
        none⟩).overallHealth = 60 ∧
    (analyzeMarketConditions ⟨none, none, some [⟨some 60⟩, ⟨some 60⟩],
        none⟩).healthStatus = .poor ∧
    (analyzeMarketConditions ⟨none, none, some [⟨some 60⟩, ⟨some 60⟩],
        none⟩).healthStatus ≠ .degraded := by
  decide

unseal Rat.mul Rat.inv Rat.add Rat.sub in
/-- C6 (amended): market health averages the `health_score || 0` values
of all exchanges present; the classification is `healthy` iff the average
exceeds 80, `degraded` iff it is in the half-open band (60, 80], and
`poor` iff it is at most 60 — the boundary value 60 is `poor`, not
degraded; scores 95 and 60 average to 77.5 and classify `degraded`. -/
theorem market_health_classification :
    (∀ insights,
      ((analyzeMarketConditions insights).healthStatus = .healthy ↔
        80 < (analyzeMarketConditions insights).overallHealth) ∧
      ((analyzeMarketConditions insights).healthStatus = .degraded ↔
        60 < (analyzeMarketConditions insights).overallHealth ∧
          (analyzeMarketConditions insights).overallHealth ≤ 80) ∧
      ((analyzeMarketConditions insights).healthStatus = .poor ↔
        (analyzeMarketConditions insights).overallHealth ≤ 60)) ∧
    (analyzeMarketConditions ⟨none, none, some [⟨some 95⟩, ⟨some 60⟩],
        none⟩).overallHealth = 155 / 2 ∧
    (analyzeMarketConditions ⟨none, none, some [⟨some 95⟩, ⟨some 60⟩],
        none⟩).healthStatus = .degraded := by
  refine ⟨?_, by decide, by decide⟩
  intro insights
  have hs : (analyzeMarketConditions insights).healthStatus
      = if 80 < (analyzeMarketConditions insights).overallHealth then .healthy
        else if 60 < (analyzeMarketConditions insights).overallHealth then .degraded
        else .poor := rfl
  rw [hs]
  split
  · rename_i h1
    exact ⟨⟨(fun _ => h1), (fun _ => rfl)⟩,
      ⟨(fun h => nomatch h), (fun h => absurd h.2 (not_le.mpr h1))⟩,
      ⟨(fun h => nomatch h), (fun h => absurd h (not_le.mpr (by linarith)))⟩⟩
  · rename_i h1
    split
    · rename_i h2
      exact ⟨⟨(fun h => nomatch h), (fun h => absurd h h1)⟩,
        ⟨(fun _ => ⟨h2, not_lt.mp h1⟩), (fun _ => rfl)⟩,
        ⟨(fun h => nomatch h), (fun h => absurd h (not_le.mpr h2))⟩⟩
    · rename_i h2
      exact ⟨⟨(fun h => nomatch h), (fun h => absurd h h1)⟩,
        ⟨(fun h => nomatch h), (fun h => absurd h.1 h2)⟩,
        ⟨(fun _ => not_lt.mp h2), (fun _ => rfl)⟩⟩

unseal Rat.mul Rat.inv Rat.add Rat.sub in
/-- C3 counterexample: in a healthy market with opportunities at 0.3% and
0.2%, `analyzeArbitrage` returns exactly the 0.3% opportunity with net
profit 0.1 — but the returned action items contain no arbitrage item at
all, so the 0.3% opportunity is not included in the action items,
contrary to the claim. -/
theorem arbitrage_action_cex :
    analyzeArbitrage ⟨none, some [⟨"BTC", "kraken", "coinbase", 100, 101, 3/10⟩,
        ⟨"ETH", "kraken", "coinbase", 100, 101, 2/10⟩], some [⟨some 95⟩], none⟩
      = [⟨"BTC", "kraken", "coinbase", 100, 101, 3/10, 1/10⟩] ∧
    (executeAnalysis ⟨none, some [⟨"BTC", "kraken", "coinbase", 100, 101, 3/10⟩,
        ⟨"ETH", "kraken", "coinbase", 100, 101, 2/10⟩], some [⟨some 95⟩],
        none⟩).actionItems = [.market .tightSpreads, .hold] := by
  decide

unseal Rat.mul Rat.inv Rat.add Rat.sub in
/-- C3 (amended): an opportunity with `priceDifferencePct = 0.3` passes
the 0.25 raw filter and gets computed net profit `0.3 − 0.2 = 0.1` in the
arbitrage results, but is excluded from the action items, whose filter
keeps only net profit above 0.5; one with 0.2 is excluded from both. In
general every arbitrage result's net profit is the raw percentage minus
0.2, and every arbitrage action item carries a net profit above 0.5. -/
theorem arbitrage_fee_filter :
    (∀ insights a, a ∈ analyzeArbitrage insights →
      ∃ opp ∈ insights.arbitrage_opportunities.getD [],
        (25 : ℚ) / 100 < opp.price_difference_pct ∧ a = mkArbAction opp ∧
        a.netProfitPct = opp.price_difference_pct - (2 : ℚ) / 10) ∧
    (∀ signals arbitrage market item,
      item ∈ generateActionItems signals arbitrage market →
      ∀ asset net, item = ActionItem.arbitrage asset net → (5 : ℚ) / 10 < net) ∧
    analyzeArbitrage ⟨none, some [⟨"BTC", "kraken", "coinbase", 100, 101, 3/10⟩,
        ⟨"ETH", "kraken", "coinbase", 100, 101, 2/10⟩], some [⟨some 95⟩], none⟩
      = [⟨"BTC", "kraken", "coinbase", 100, 101, 3/10, 1/10⟩] ∧
    (executeAnalysis ⟨none, some [⟨"BTC", "kraken", "coinbase", 100, 101, 3/10⟩,
        ⟨"ETH", "kraken", "coinbase", 100, 101, 2/10⟩], some [⟨some 95⟩],
        none⟩).actionItems = [.market .tightSpreads, .hold] := by
  refine ⟨?_, ?_, by decide, by decide⟩
  · intro insights a ha
    unfold analyzeArbitrage at ha
    obtain ⟨opp, hopp, hao⟩ := List.mem_map.mp ha
    have hf := List.mem_filter.mp hopp
    exact ⟨opp, hf.1, of_decide_eq_true hf.2, hao.symm, by rw [← hao]; rfl⟩
  · intro signals arbitrage market item hitem asset net heq
    subst heq
    unfold generateActionItems at hitem
    split at hitem
    · exact nomatch (List.mem_singleton.mp hitem)
    · have hmem : ActionItem.arbitrage asset net ∈
          (arbitrage.filter (fun a => decide ((5 : ℚ) / 10 < a.netProfitPct))).map
            (fun arb => ActionItem.arbitrage arb.asset arb.netProfitPct)
          ++ ((signals.filter (fun s => decide ((8 : ℚ) / 10 < s.strength))).map
            (fun signal => ActionItem.signalAct signal.action signal.asset
              signal.exchange signal.strength)
          ++ [ActionItem.market market.recommendation]) := by
        dsimp only at hitem
        split at hitem
        · rcases List.mem_append.mp hitem with h | h
          · simpa [List.append_assoc] using h
          · exact nomatch (List.mem_singleton.mp h)
        · simpa [List.append_assoc] using hitem
      rcases List.mem_append.mp hmem with h | h
      · obtain ⟨a, hafilt, haeq⟩ := List.mem_map.mp h
        have hnet : a.netProfitPct = net := (ActionItem.arbitrage.inj haeq).2
        have := (List.mem_filter.mp hafilt).2
        rw [← hnet]
        exact of_decide_eq_true this
      · rcases List.mem_append.mp h with h | h
        · obtain ⟨s, _, hseq⟩ := List.mem_map.mp h
          exact nomatch hseq
        · exact nomatch (List.mem_singleton.mp h)

unseal Rat.mul Rat.inv Rat.add Rat.sub in
/-- C5 counterexample: two arbitrage opportunities with net profits 0.6
and 0.9 in that input order produce action items in that same order — the
smaller profit first — so arbitrage items are not sorted by descending
net profit. -/
theorem action_order_cex :
    (executeAnalysis ⟨none, some [⟨"ADA", "k", "c", 100, 101, 8/10⟩,
        ⟨"XRP", "k", "c", 100, 101, 11/10⟩], some [⟨some 95⟩], none⟩).actionItems
      = [.arbitrage "ADA" (6/10), .arbitrage "XRP" (9/10), .market .tightSpreads] ∧
    ((6 : ℚ) / 10 < (9 : ℚ) / 10) := by
  decide

/-- C5 (amended): for non-poor market health the action items are the
arbitrage actions with net profit above 0.5 in input order, then the
signals with strength above 0.8 in input order, then exactly one
market-condition line (always present), then a hold item exactly when the
first two groups are empty; no sorting is applied within a group. -/
theorem action_items_structure (signals : List TradingDecision)
    (arbitrage : List ArbAction) (market : MarketCondition)
    (h : market.healthStatus ≠ .poor) :
    generateActionItems signals arbitrage market =
      (arbitrage.filter (fun a => decide ((5 : ℚ) / 10 < a.netProfitPct))).map
        (fun arb => ActionItem.arbitrage arb.asset arb.netProfitPct)
      ++ (signals.filter (fun s => decide ((8 : ℚ) / 10 < s.strength))).map
        (fun signal => ActionItem.signalAct signal.action signal.asset
          signal.exchange signal.strength)
      ++ [ActionItem.market market.recommendation]
      ++ (if (arbitrage.filter (fun a => decide ((5 : ℚ) / 10 < a.netProfitPct))).map
            (fun arb => ActionItem.arbitrage arb.asset arb.netProfitPct) = []
          ∧ (signals.filter (fun s => decide ((8 : ℚ) / 10 < s.strength))).map
            (fun signal => ActionItem.signalAct signal.action signal.asset
              signal.exchange signal.strength) = []
          then [ActionItem.hold] else []) := by
  unfold generateActionItems
  rw [if_neg h]
  dsimp only
  split
  · rename_i hlen
    rw [List.length_append, List.length_append, List.length_singleton] at hlen
    have ha0 : (arbitrage.filter (fun a => decide ((5 : ℚ) / 10 < a.netProfitPct))).map
        (fun arb => ActionItem.arbitrage arb.asset arb.netProfitPct) = [] :=
      List.length_eq_zero.mp (by omega)
    have hs0 : (signals.filter (fun s => decide ((8 : ℚ) / 10 < s.strength))).map
        (fun signal => ActionItem.signalAct signal.action signal.asset
          signal.exchange signal.strength) = [] :=
      List.length_eq_zero.mp (by omega)
    rw [ha0, hs0, if_pos ⟨rfl, rfl⟩]
  · rename_i hlen
    rw [if_neg]
    · simp
    · rintro ⟨h1, h2⟩
      apply hlen
      rw [h1, h2]
      rfl

/-- C5 witness: the amended structure at a concrete input with one
qualifying arbitrage action and no signals. -/
theorem action_items_structure_witness :
    generateActionItems [] [⟨"ADA", "k", "c", 100, 101, 8/10, 6/10⟩]
        ⟨95, .healthy, 0, 0, 0, .normal⟩ =
      (([⟨"ADA", "k", "c", 100, 101, 8/10, 6/10⟩] : List ArbAction).filter
        (fun a => decide ((5 : ℚ) / 10 < a.netProfitPct))).map
        (fun arb => ActionItem.arbitrage arb.asset arb.netProfitPct)
      ++ (([] : List TradingDecision).filter
        (fun s => decide ((8 : ℚ) / 10 < s.strength))).map
        (fun signal => ActionItem.signalAct signal.action signal.asset
          signal.exchange signal.strength)
      ++ [ActionItem.market Recommendation.normal]
      ++ (if (([⟨"ADA", "k", "c", 100, 101, 8/10, 6/10⟩] : List ArbAction).filter
            (fun a => decide ((5 : ℚ) / 10 < a.netProfitPct))).map
            (fun arb => ActionItem.arbitrage arb.asset arb.netProfitPct) = []
          ∧ (([] : List TradingDecision).filter
            (fun s => decide ((8 : ℚ) / 10 < s.strength))).map
            (fun signal => ActionItem.signalAct signal.action signal.asset
              signal.exchange signal.strength) = []
          then [ActionItem.hold] else []) :=
  action_items_structure [] [⟨"ADA", "k", "c", 100, 101, 8/10, 6/10⟩]
    ⟨95, .healthy, 0, 0, 0, .normal⟩ (by decide)

unseal Rat.mul Rat.inv Rat.add Rat.sub in
/-- C7 counterexample: a document whose sub-collections are all missing
yields empty filtered sets, but the action items are the single caution
WAIT item produced by the `poor` classification of the empty health
average — there is no hold item, contrary to the claim. -/
theorem empty_doc_cex :
    analyzeSignals ⟨none, none, none, none⟩ = [] ∧
    analyzeArbitrage ⟨none, none, none, none⟩ = [] ∧
    (executeAnalysis ⟨none, none, none, none⟩).actionItems = [.wait] ∧
    ActionItem.hold ∉ (executeAnalysis ⟨none, none, none, none⟩).actionItems := by
  decide

/-- C7 (amended): the analysis functions are total, and empty or missing
sub-collections produce empty filtered signal and arbitrage sets; the
empty health map averages to 0 and classifies `poor`, so the action items
are the single caution WAIT item — not a hold item. -/
theorem empty_doc_behavior (insights : Insights)
    (hs : insights.current_signals.getD [] = [])
    (ha : insights.arbitrage_opportunities.getD [] = [])
    (hh : insights.exchange_health.getD [] = []) :
    analyzeSignals insights = [] ∧
    analyzeArbitrage insights = [] ∧
    (analyzeMarketConditions insights).healthStatus = .poor ∧
    (executeAnalysis insights).actionItems = [.wait] ∧
    ActionItem.hold ∉ (executeAnalysis insights).actionItems := by
  have h1 : analyzeSignals insights = [] := by
    unfold analyzeSignals
    rw [hs]
    rfl
  have h2 : analyzeArbitrage insights = [] := by
    unfold analyzeArbitrage
    rw [ha]
    rfl
  have h3 : (analyzeMarketConditions insights).healthStatus = .poor := by
    unfold analyzeMarketConditions
    dsimp only
    rw [hh]
    norm_num
  have h4 : (executeAnalysis insights).actionItems = [.wait] := by
    show generateActionItems (analyzeSignals insights) (analyzeArbitrage insights)
      (analyzeMarketConditions insights) = [.wait]
    unfold generateActionItems
    rw [if_pos h3]
  refine ⟨h1, h2, h3, h4, ?_⟩
  rw [h4]
  simp

/-- C7 witness: the amended behaviour at the all-missing document. -/
theorem empty_doc_behavior_witness :
    analyzeSignals ⟨none, none, none, none⟩ = [] ∧
    analyzeArbitrage ⟨none, none, none, none⟩ = [] ∧
    (analyzeMarketConditions ⟨none, none, none, none⟩).healthStatus = .poor ∧
    (executeAnalysis ⟨none, none, none, none⟩).actionItems = [.wait] ∧
    ActionItem.hold ∉ (executeAnalysis ⟨none, none, none, none⟩).actionItems :=
  empty_doc_behavior ⟨none, none, none, none⟩ rfl rfl rfl

/-!
Lemmas for `getLatestPrices`: successful fetches carry records, the
fetcher preserves cache well-formedness, and the nested result object has
an entry for every pair.
-/

theorem processBody_ne_nil {body : Body} {rs : List Record}
    (h : processBody body = some rs) : rs ≠ [] := by
  unfold processBody at h
  split at h
  · cases h
  · dsimp only at h
    split at h
    · cases h
    · split at h
      · cases h
      · rename_i hne
        have := Option.some.inj h
        subst this
        intro hnil
        exact hne (by rw [hnil]; rfl)

theorem candidateRecords_ne_nil {net : Nat → Nat → Option Body} {i : Nat}
    {rs : List Record} (h : candidateRecords net i = some rs) : rs ≠ [] := by
  unfold candidateRecords at h
  cases hf : (fetchWithCacheBusting (net i) 2 0).1 with
  | none => rw [hf] at h; cases h
  | some body => rw [hf] at h; exact processBody_ne_nil h

theorem best_records_ne_nil {net : Nat → Nat → Option Body} {now : Nat}
    {r : FetchResult} (h : (runCandidates net now).bestResult = some r) :
    r.records ≠ [] := by
  rcases runCandidates_inv net now with ⟨hb, _, _⟩ |
    ⟨r', hb, _, _, _, _, _, hcr', _⟩
  · rw [hb] at h; cases h
  · rw [hb] at h
    have := Option.some.inj h
    subst this
    exact candidateRecords_ne_nil hcr'

theorem mapGet_some_mem {m : Cache} {k : JsStr} {v : FetchResult}
    (h : mapGet m k = some v) : ∃ e ∈ m, e.2 = v := by
  unfold mapGet at h
  cases hf : m.find? (fun e => decide (e.1 = k)) with
  | none => rw [hf] at h; cases h
  | some e =>
    rw [hf] at h
    exact ⟨e, List.mem_of_find?_eq_some hf, Option.some.inj h⟩

theorem mapSet_mem_cases {m : Cache} {k : JsStr} {v : FetchResult}
    {e : JsStr × FetchResult} (he : e ∈ mapSet m k v) : e ∈ m ∨ e = (k, v) := by
  unfold mapSet at he
  split at he
  · obtain ⟨e', he', hf⟩ := List.mem_map.mp he
    by_cases h' : e'.1 = k
    · rw [if_pos h'] at hf
      right
      exact hf.symm
    · rw [if_neg h'] at hf
      left
      exact hf ▸ he'
  · rcases List.mem_append.mp he with h' | h'
    · exact Or.inl h'
    · exact Or.inr (List.mem_singleton.mp h')

theorem fetch_ok_records_ne_nil (net : Nat → Nat → Option Body) (cache : Cache)
    (now : Nat) (exchange asset timeframe date : JsStr) (options : FetchOptions)
    (r : FetchResult) (hwf : WFCache cache)
    (hok : (fetchCryptoData net cache now exchange asset timeframe date options).result
      = .ok r) : r.records ≠ [] := by
  cases huse : options.useCache with
  | false =>
    have hm : (if options.useCache then
        mapGet cache (cacheKey (mkPath exchange asset timeframe date) now)
      else none) = none := by rw [huse]; rfl
    rw [fetchCryptoData_miss net cache now exchange asset timeframe date options hm]
      at hok
    cases hbest : (runCandidates net now).bestResult with
    | none => rw [hbest] at hok; cases hok
    | some best =>
      rw [hbest] at hok
      have := Except.ok.inj hok
      subst this
      exact best_records_ne_nil hbest
  | true =>
    cases hc : mapGet cache (cacheKey (mkPath exchange asset timeframe date) now) with
    | none =>
      have hm : (if options.useCache then
          mapGet cache (cacheKey (mkPath exchange asset timeframe date) now)
        else none) = none := by rw [huse, if_pos rfl]; exact hc
      rw [fetchCryptoData_miss net cache now exchange asset timeframe date options hm]
        at hok
      cases hbest : (runCandidates net now).bestResult with
      | none => rw [hbest] at hok; cases hok
      | some best =>
        rw [hbest] at hok
        have := Except.ok.inj hok
        subst this
        exact best_records_ne_nil hbest
    | some cached =>
      rw [fetchCryptoData_hit net cache now exchange asset timeframe date options
        cached huse hc] at hok
      have := Except.ok.inj hok
      subst this
      obtain ⟨e, hmem, hev⟩ := mapGet_some_mem hc
      rw [← hev]
      exact hwf e hmem

theorem fetch_preserves_WF (net : Nat → Nat → Option Body) (cache : Cache)
    (now : Nat) (exchange asset timeframe date : JsStr) (options : FetchOptions)
    (hwf : WFCache cache) :
    WFCache (fetchCryptoData net cache now exchange asset timeframe date options).cache := by
  cases huse : options.useCache with
  | false =>
    have hm : (if options.useCache then
        mapGet cache (cacheKey (mkPath exchange asset timeframe date) now)
      else none) = none := by rw [huse]; rfl
    rw [fetchCryptoData_miss net cache now exchange asset timeframe date options hm]
    cases hbest : (runCandidates net now).bestResult with
    | none => exact hwf
    | some best =>
      show WFCache (if options.useCache then _ else cache)
      rw [huse]
      exact hwf
  | true =>
    cases hc : mapGet cache (cacheKey (mkPath exchange asset timeframe date) now) with
    | some cached =>
      rw [fetchCryptoData_hit net cache now exchange asset timeframe date options
        cached huse hc]
      exact hwf
    | none =>
      have hm : (if options.useCache then
          mapGet cache (cacheKey (mkPath exchange asset timeframe date) now)
        else none) = none := by rw [huse, if_pos rfl]; exact hc
      rw [fetchCryptoData_miss net cache now exchange asset timeframe date options hm]
      cases hbest : (runCandidates net now).bestResult with
      | none => exact hwf
      | some best =>
        show WFCache (if options.useCache then _ else cache)
        rw [huse, if_pos rfl]
        intro e he
        have he' := (List.mem_filter.mp he).1
        rcases mapSet_mem_cases he' with h' | h'
        · exact hwf e h'
        · rw [h']
          exact best_records_ne_nil hbest

theorem fetchPair_cache (netAll : JsStr → JsStr → Nat → Nat → Option Body)
    (cache : Cache) (now : Nat) (date : JsStr) (options : FetchOptions)
    (exchange asset : JsStr) :
    (fetchPair netAll cache now date options exchange asset).2
      = (fetchCryptoData (netAll exchange asset) cache now exchange asset oneMin
          date options).cache := by
  unfold fetchPair
  dsimp only
  cases (fetchCryptoData (netAll exchange asset) cache now exchange asset oneMin
      date options).result with
  | ok data => dsimp only
  | error err => rfl

theorem fetchPair_preserves_WF (netAll : JsStr → JsStr → Nat → Nat → Option Body)
    (cache : Cache) (now : Nat) (date : JsStr) (options : FetchOptions)
    (exchange asset : JsStr) (hwf : WFCache cache) :
    WFCache (fetchPair netAll cache now date options exchange asset).2 := by
  rw [fetchPair_cache]
  exact fetch_preserves_WF (netAll exchange asset) cache now exchange asset oneMin
    date options hwf

theorem runAssets_lookup (netAll : JsStr → JsStr → Nat → Nat → Option Body)
    (now : Nat) (date : JsStr) (options : FetchOptions) (exchange : JsStr) :
    ∀ (as : List JsStr) (cache : Cache) (asset : JsStr), asset ∈ as →
      ∃ c, lookupEntry (runAssets netAll now date options exchange cache as).1 asset
          = some (fetchPair netAll c now date options exchange asset).1
        ∧ (WFCache cache → WFCache c) := by
  intro as
  induction as with
  | nil => intro cache asset h; cases h
  | cons a rest ih =>
    intro cache asset h
    by_cases ha : a = asset
    · subst ha
      refine ⟨cache, ?_, fun hw => hw⟩
      unfold lookupEntry runAssets
      dsimp only
      rw [List.find?_cons_of_pos _ (by simp)]
      rfl
    · have h' : asset ∈ rest := by
        rcases List.mem_cons.mp h with h | h
        · exact absurd h.symm ha
        · exact h
      obtain ⟨c, hc, hwfc⟩ :=
        ih ((fetchPair netAll cache now date options exchange a).2) asset h'
      refine ⟨c, ?_, fun hw =>
        hwfc (fetchPair_preserves_WF netAll cache now date options exchange a hw)⟩
      unfold lookupEntry runAssets
      dsimp only
      rw [List.find?_cons_of_neg _ (by simp [ha])]
      exact hc

theorem runAssets_preserves_WF (netAll : JsStr → JsStr → Nat → Nat → Option Body)
    (now : Nat) (date : JsStr) (options : FetchOptions) (exchange : JsStr) :
    ∀ (as : List JsStr) (cache : Cache), WFCache cache →
      WFCache (runAssets netAll now date options exchange cache as).2 := by
  intro as
  induction as with
  | nil => intro cache hw; exact hw
  | cons a rest ih =>
    intro cache hw
    exact ih _ (fetchPair_preserves_WF netAll cache now date options exchange a hw)

theorem runExchanges_lookup (netAll : JsStr → JsStr → Nat → Nat → Option Body)
    (now : Nat) (date : JsStr) (options : FetchOptions) :
    ∀ (es : List JsStr) (cache : Cache) (exchange : JsStr), exchange ∈ es →
      ∃ c, lookupRow (runExchanges netAll now date options cache es).1 exchange
          = some (runAssets netAll now date options exchange c assetsList).1
        ∧ (WFCache cache → WFCache c) := by
  intro es
  induction es with
  | nil => intro cache exchange h; cases h
  | cons e rest ih =>
    intro cache exchange h
    by_cases he : e = exchange
    · subst he
      refine ⟨cache, ?_, fun hw => hw⟩
      unfold lookupRow runExchanges
      dsimp only
      rw [List.find?_cons_of_pos _ (by simp)]
      rfl
    · have h' : exchange ∈ rest := by
        rcases List.mem_cons.mp h with h | h
        · exact absurd h.symm he
        · exact h
      obtain ⟨c, hc, hwfc⟩ :=
        ih ((runAssets netAll now date options e cache assetsList).2) exchange h'
      refine ⟨c, ?_, fun hw =>
        hwfc (runAssets_preserves_WF netAll now date options e assetsList cache hw)⟩
      unfold lookupRow runExchanges
      dsimp only
      rw [List.find?_cons_of_neg _ (by simp [he])]
      exact hc

/-- C10: `getLatestPrices` never propagates a fetch failure. For every
exchange in the fixed list and every asset in the fixed list, the
returned object contains an entry for that pair, computed by that pair's
iteration from the cache state reached at that point; the entry is `null`
exactly when that pair's fetch threw (`FetchExhausted`), and otherwise it
is the price summary derived from the last record of the successful
fetch. -/
theorem getLatestPrices_total (netAll : JsStr → JsStr → Nat → Nat → Option Body)
    (cache : Cache) (now : Nat) (date : JsStr) (options : FetchOptions)
    (exchange asset : JsStr) (hwf : WFCache cache)
    (he : exchange ∈ exchangesList) (ha : asset ∈ assetsList) :
    ∃ row c,
      lookupRow (getLatestPrices netAll cache now date options) exchange = some row ∧
      lookupEntry row asset
        = some (fetchPair netAll c now date options exchange asset).1 ∧
      ((fetchPair netAll c now date options exchange asset).1 = none ↔
        (fetchCryptoData (netAll exchange asset) c now exchange asset oneMin date
          options).result = .error .fetchExhausted) ∧
      ∀ s, (fetchPair netAll c now date options exchange asset).1 = some s →
        ∃ data lastRecord,
          (fetchCryptoData (netAll exchange asset) c now exchange asset oneMin date
            options).result = .ok data ∧
          data.records.getLast? = some lastRecord ∧ s = mkSummary lastRecord data := by
  obtain ⟨c1, hrow, hwf1⟩ :=
    runExchanges_lookup netAll now date options exchangesList cache exchange he
  obtain ⟨c, hentry, hwf2⟩ :=
    runAssets_lookup netAll now date options exchange assetsList c1 asset ha
  have hwfc : WFCache c := hwf2 (hwf1 hwf)
  refine ⟨_, c, hrow, hentry, ?_, ?_⟩
  · unfold fetchPair
    dsimp only
    cases hres : (fetchCryptoData (netAll exchange asset) c now exchange asset
        oneMin date options).result with
    | ok data =>
      dsimp only
      have hne : data.records ≠ [] :=
        fetch_ok_records_ne_nil (netAll exchange asset) c now exchange asset oneMin
          date options data hwfc hres
      cases hl : data.records.getLast? with
      | none => exact absurd (List.getLast?_eq_none_iff.mp hl) hne
      | some lr => exact ⟨(fun h => nomatch h), (fun h => nomatch h)⟩
    | error err =>
      cases err
      exact ⟨(fun _ => rfl), (fun _ => rfl)⟩
  · intro s hsome
    unfold fetchPair at hsome
    dsimp only at hsome
    cases hres : (fetchCryptoData (netAll exchange asset) c now exchange asset
        oneMin date options).result with
    | ok data =>
      rw [hres] at hsome
      dsimp only at hsome
      cases hl : data.records.getLast? with
      | none => rw [hl] at hsome; cases hsome
      | some lr =>
        rw [hl] at hsome
        exact ⟨data, lr, rfl, hl, (Option.some.inj hsome).symm⟩
    | error err =>
      rw [hres] at hsome
      cases hsome

/-- C10 witness: at a network where every attempt fails, the coinbase/BTC
entry exists and is null, matching the thrown `FetchExhausted`. -/
theorem getLatestPrices_total_witness :
    ∃ row c,
      lookupRow (getLatestPrices (fun _ _ _ _ => none) [] 0 ['d'] {})
          ['c', 'o', 'i', 'n', 'b', 'a', 's', 'e'] = some row ∧
      lookupEntry row ['B', 'T', 'C']
        = some (fetchPair (fun _ _ _ _ => none) c 0 ['d'] {}
            ['c', 'o', 'i', 'n', 'b', 'a', 's', 'e'] ['B', 'T', 'C']).1 ∧
      ((fetchPair (fun _ _ _ _ => none) c 0 ['d'] {}
          ['c', 'o', 'i', 'n', 'b', 'a', 's', 'e'] ['B', 'T', 'C']).1 = none ↔
        (fetchCryptoData ((fun (_ _ : JsStr) (_ _ : Nat) => (none : Option Body))
            ['c', 'o', 'i', 'n', 'b', 'a', 's', 'e'] ['B', 'T', 'C']) c 0
          ['c', 'o', 'i', 'n', 'b', 'a', 's', 'e'] ['B', 'T', 'C'] oneMin ['d']
          {}).result = .error .fetchExhausted) ∧
      ∀ s, (fetchPair (fun _ _ _ _ => none) c 0 ['d'] {}
          ['c', 'o', 'i', 'n', 'b', 'a', 's', 'e'] ['B', 'T', 'C']).1 = some s →
        ∃ data lastRecord,
          (fetchCryptoData ((fun (_ _ : JsStr) (_ _ : Nat) => (none : Option Body))
              ['c', 'o', 'i', 'n', 'b', 'a', 's', 'e'] ['B', 'T', 'C']) c 0
            ['c', 'o', 'i', 'n', 'b', 'a', 's', 'e'] ['B', 'T', 'C'] oneMin ['d']
            {}).result = .ok data ∧
          data.records.getLast? = some lastRecord ∧ s = mkSummary lastRecord data :=
  getLatestPrices_total (fun _ _ _ _ => none) [] 0 ['d'] {}
    ['c', 'o', 'i', 'n', 'b', 'a', 's', 'e'] ['B', 'T', 'C']
    (fun e he => absurd he (List.not_mem_nil e)) (by decide) (by decide)
